import Mathlib

/-
Verification of the PGN-to-opening-book converter (pgn_to_book.py).

The development shallowly embeds the program: the Zobrist key table and
position hash, the move classifier, the per-game replay and aggregation
into a weighted table, and the binary book writer.  Board-state queries
that the program delegates to the external chess library (capture and
castling predicates, the move application) are modelled as an explicit
record of functions supplied by that collaborator.
-/

namespace BookGen

/-- Zobrist key material, mirroring the module-level PIECE_KEYS (12 rows of 64
piece-square keys), CASTLING_KEYS (4 values) and SIDE_KEY. -/
structure KeyTable where
  piece_keys : List (List Nat)
  castling_keys : List Nat
  side_key : Nat
  deriving DecidableEq

/-- A piece as the board collaborator exposes it: a kind in 1..6
(pawn = 1, knight = 2, bishop = 3, rook = 4, queen = 5, king = 6) and a
colour flag, true for white (chess.WHITE). -/
structure Piece where
  piece_type : Nat
  color : Bool
  deriving DecidableEq

/-- Board state as the hash and the aggregator read it: occupancy per square
(squares 0..63), the four castling rights, the side to move, plus the
en-passant square and the move counters, which the hash must ignore. -/
structure Board where
  piece_at : Nat → Option Piece
  castle_wk : Bool
  castle_wq : Bool
  castle_bk : Bool
  castle_bq : Bool
  turn : Bool
  ep_square : Option Nat
  halfmove_clock : Nat
  fullmove_number : Nat

/-- A move as python-chess exposes it: source and target square indices and an
optional promotion piece kind. -/
structure Move where
  from_square : Nat
  to_square : Nat
  promotion : Option Nat
  deriving DecidableEq

/-- The board-state operations the program calls on the external chess
library: the capture and castling predicates on a candidate move, and the
mutator that applies a move and yields the next position. -/
structure ChessAPI where
  is_capture : Board → Move → Bool
  is_castling : Board → Move → Bool
  push : Board → Move → Board

/-- The piece-identity row used by calculate_hash:
(piece.piece_type - 1) + (6 if not piece.color else 0). -/
def pieceIndex (p : Piece) : Nat :=
  (p.piece_type - 1) + (if p.color then 0 else 6)

/-- In-range indexing PIECE_KEYS[idx][sq] (out-of-range reads, which the
program never performs, default to 0). -/
def pieceKeyAt (kt : KeyTable) (idx sq : Nat) : Nat :=
  (kt.piece_keys.getD idx []).getD sq 0

/-- In-range indexing CASTLING_KEYS[i]. -/
def castlingKeyAt (kt : KeyTable) (i : Nat) : Nat :=
  kt.castling_keys.getD i 0

/-- One square's contribution inside the piece loop of calculate_hash. -/
def hashStep (kt : KeyTable) (b : Board) (h sq : Nat) : Nat :=
  match b.piece_at sq with
  | some p => h ^^^ pieceKeyAt kt (pieceIndex p) sq
  | none => h

/-- Translation of calculate_hash: start at 0, fold the piece keys over all 64
squares, XOR each held castling right's key, and XOR SIDE_KEY when
board.turn is true (white to move). -/
def calculate_hash (kt : KeyTable) (b : Board) : Nat :=
  let h0 := (List.range 64).foldl (hashStep kt b) 0
  let h1 := if b.castle_wk then h0 ^^^ castlingKeyAt kt 0 else h0
  let h2 := if b.castle_wq then h1 ^^^ castlingKeyAt kt 1 else h1
  let h3 := if b.castle_bk then h2 ^^^ castlingKeyAt kt 2 else h2
  let h4 := if b.castle_bq then h3 ^^^ castlingKeyAt kt 3 else h3
  if b.turn then h4 ^^^ kt.side_key else h4

/-- The hash as the spec's words describe it: starting from 0, XOR in
piece_keys[identity][square] for every occupied square, then each of the four
castling keys whose right is currently held, then side_key exactly when it is
white's turn. -/
def specHash (kt : KeyTable) (b : Board) : Nat :=
  let occupied := (List.range 64).filter (fun sq => (b.piece_at sq).isSome)
  let h0 := occupied.foldl (hashStep kt b) 0
  let h1 := if b.castle_wk then h0 ^^^ castlingKeyAt kt 0 else h0
  let h2 := if b.castle_wq then h1 ^^^ castlingKeyAt kt 1 else h1
  let h3 := if b.castle_bk then h2 ^^^ castlingKeyAt kt 2 else h2
  let h4 := if b.castle_bq then h3 ^^^ castlingKeyAt kt 3 else h3
  if b.turn then h4 ^^^ kt.side_key else h4

/-- Translation of board.piece_type_at. -/
def piece_type_at (b : Board) (sq : Nat) : Option Nat :=
  (b.piece_at sq).map Piece.piece_type

/-- The absolute square-index distance abs(move.from_square - move.to_square). -/
def absDiff (m : Move) : Nat :=
  ((m.from_square : Int) - (m.to_square : Int)).natAbs

/-- Translation of get_move_type: capture 1, else castling 6, else promotion 2,
else pawn moving 16 square indices 4, else quiet 0 (chess.PAWN = 1). -/
def get_move_type (api : ChessAPI) (b : Board) (m : Move) : Nat :=
  if api.is_capture b m then 1
  else if api.is_castling b m then 6
  else if m.promotion.isSome then 2
  else if piece_type_at b m.from_square = some 1 ∧ absDiff m = 16 then 4
  else 0

/-- Translation of get_piece_type: 0 on an empty square, otherwise the piece
kind plus 6 for a black piece. -/
def get_piece_type (b : Board) (sq : Nat) : Nat :=
  match b.piece_at sq with
  | none => 0
  | some p => p.piece_type + (if p.color then 0 else 6)

/-- Translation of generate_zobrist_keys over an explicit stream of
getrandbits(64) draws: draw i of the seeded generator is rand i, consumed in
the order the source draws them (the 12 rows of 64 piece keys row by row,
then the 4 castling keys, then the side key). -/
def generate_zobrist_keys (rand : Nat → Nat) : KeyTable :=
  ⟨(List.range 12).map (fun i => (List.range 64).map (fun j => rand (64 * i + j))),
   (List.range 4).map (fun i => rand (12 * 64 + i)),
   rand (12 * 64 + 4)⟩

/-- One book entry as the OpeningBookEntry class stores it; a new entry starts
with weight 1. -/
structure OpeningBookEntry where
  hash : Nat
  source : Nat
  target : Nat
  promotion : Nat
  move_type : Nat
  piece : Nat
  weight : Nat
  deriving DecidableEq

/-- Translation of OpeningBookEntry.increment_weight: self.weight += 1. -/
def increment_weight (e : OpeningBookEntry) : OpeningBookEntry :=
  ⟨e.hash, e.source, e.target, e.promotion, e.move_type, e.piece, e.weight + 1⟩

/-- The inner dictionary key (from_square, to_square, promotion, move_type,
piece). -/
abbrev MoveKey := Nat × Nat × Nat × Nat × Nat

/-- One position's inner dictionary, as an insertion-ordered association
list (Python dicts preserve insertion order). -/
abbrev Bucket := List (MoveKey × OpeningBookEntry)

/-- The positions table: the outer dictionary from position hash to bucket. -/
abbrev Positions := List (Nat × Bucket)

/-- First-match association-list lookup, the dictionary read. -/
def lookupKey {α β : Type} [DecidableEq α] : List (α × β) → α → Option β
  | [], _ => none
  | (k, v) :: rest, key => if k = key then some v else lookupKey rest key

/-- Replace the value stored at a present key, the dictionary in-place
update (the key keeps its position, everything else is untouched). -/
def updateKey {α β : Type} [DecidableEq α] (f : β → β) : List (α × β) → α → List (α × β)
  | [], _ => []
  | (k, v) :: rest, key => if k = key then (k, f v) :: rest else (k, v) :: updateKey f rest key

/-- One observation produced by the replay loop for a single ply: the fields
from which the loop builds both the OpeningBookEntry and its dictionary keys. -/
structure Obs where
  hash : Nat
  source : Nat
  target : Nat
  promotion : Nat
  move_type : Nat
  piece : Nat
  deriving DecidableEq

/-- The inner key move_key = (from_square, to_square, promotion, move_type,
piece) built from an observation. -/
def moveKeyOf (o : Obs) : MoveKey :=
  (o.source, o.target, o.promotion, o.move_type, o.piece)

/-- The fresh OpeningBookEntry the loop constructs for an observation. -/
def newEntry (o : Obs) : OpeningBookEntry :=
  ⟨o.hash, o.source, o.target, o.promotion, o.move_type, o.piece, 1⟩

/-- Record one observation in a bucket: increment the existing entry with the
same move_key, or append a fresh entry with weight 1 (a new Python dict key
goes to the end). -/
def bucketAdd (b : Bucket) (o : Obs) : Bucket :=
  match lookupKey b (moveKeyOf o) with
  | some _ => updateKey increment_weight b (moveKeyOf o)
  | none => b ++ [(moveKeyOf o, newEntry o)]

/-- Record one observation in the positions table, lines 137-146 of the
source with defaultdict semantics: a missing outer key gets a fresh bucket
(appended at the end) holding just the new entry. -/
def addObs (t : Positions) (o : Obs) : Positions :=
  match lookupKey t o.hash with
  | some _ => updateKey (fun b => bucketAdd b o) t o.hash
  | none => t ++ [(o.hash, bucketAdd [] o)]

/-- Two-level lookup: the entry stored under outer key h and inner key k. -/
def lookupT (t : Positions) (h : Nat) (k : MoveKey) : Option OpeningBookEntry :=
  (lookupKey t h).bind (fun b => lookupKey b k)

/-- Does an observation carry identity (h, k)? -/
def matchesIdent (o : Obs) (h : Nat) (k : MoveKey) : Bool :=
  decide (o.hash = h ∧ moveKeyOf o = k)

/-- How many observations in the stream carry identity (h, k). -/
def identCount (L : List Obs) (h : Nat) (k : MoveKey) : Nat :=
  (L.filter (fun o => matchesIdent o h k)).length

/-- The first observation in the stream with identity (h, k), if any. -/
def firstIdent (L : List Obs) (h : Nat) (k : MoveKey) : Option Obs :=
  (L.filter (fun o => matchesIdent o h k)).head?

/-- An entry with the fields of observation o and the given weight. -/
def entryWithWeight (o : Obs) (w : Nat) : OpeningBookEntry :=
  ⟨o.hash, o.source, o.target, o.promotion, o.move_type, o.piece, w⟩

/-- Ingest a stream of observations into an initially empty table. -/
def ingest (L : List Obs) : Positions :=
  L.foldl addObs []

/-- The promotion code table of the replay loop: 0 when the move carries no
promotion, else QUEEN(5) -> 1, ROOK(4) -> 2, BISHOP(3) -> 3, KNIGHT(2) -> 4.
The source's dict lookup would raise on any other kind; a legal move never
carries one, and the model returns 0 there. -/
def promotionCode (p : Option Nat) : Nat :=
  match p with
  | none => 0
  | some 5 => 1
  | some 4 => 2
  | some 3 => 3
  | some 2 => 4
  | some _ => 0

/-- The observation the loop body records for one ply: the hash of the board
before the move, the move's classification, and the moving piece's code. -/
def mkObs (api : ChessAPI) (kt : KeyTable) (b : Board) (m : Move) : Obs :=
  ⟨calculate_hash kt b, m.from_square, m.to_square, promotionCode m.promotion,
   get_move_type api b m, get_piece_type b m.from_square⟩

/-- The replay loop of process_pgn_file, lines 117-149: starting with
move_count = count, stop as soon as move_count reaches max_moves; otherwise
record the observation for the current board and move, push the move, and
continue with move_count + 1. -/
def replayObs (api : ChessAPI) (kt : KeyTable) :
    Board → List Move → Nat → Nat → List Obs
  | _, [], _, _ => []
  | b, m :: ms, count, maxm =>
    if maxm ≤ count then []
    else mkObs api kt b m :: replayObs api kt (api.push b m) ms (count + 1) maxm

/-- Apply a prefix of moves to a board, left to right. -/
def pushAll (api : ChessAPI) (b : Board) (ms : List Move) : Board :=
  ms.foldl api.push b

/-- Model of the Python int() constructor applied to a rating string: an
optional sign followed by at least one decimal digit parses to the signed
value, anything else raises (none). -/
def parseIntStr (s : String) : Option Int :=
  let digits? (cs : List Char) : Option Nat :=
    if cs = [] then none
    else cs.foldl (fun acc c =>
      match acc with
      | none => none
      | some n => if c.isDigit then some (n * 10 + (c.toNat - 48)) else none) (some 0)
  match s.data with
  | '-' :: rest => (digits? rest).map (fun n => -(n : Int))
  | '+' :: rest => (digits? rest).map (fun n => (n : Int))
  | cs => (digits? cs).map (fun n => (n : Int))

/-- One input game as the parsing collaborator hands it over: the two rating
headers (none when the tag is absent), the game's starting board, and the
mainline move list. -/
structure Game where
  whiteElo : Option String
  blackElo : Option String
  start : Board
  moves : List Move

/-- The observations one game contributes, lines 107-149: read each Elo via
headers.get with default "0", skip the game when either fails to parse as an
int or when the lower rating is below min_elo, otherwise replay up to
max_moves plies. -/
def gameObs (api : ChessAPI) (kt : KeyTable) (min_elo : Int) (max_moves : Nat)
    (g : Game) : List Obs :=
  match parseIntStr (g.whiteElo.getD "0"), parseIntStr (g.blackElo.getD "0") with
  | some w, some bl =>
    if min w bl < min_elo then []
    else replayObs api kt g.start g.moves 0 max_moves
  | _, _ => []

/-- process_pgn_file: fold every admitted game's observations, in order, into
an initially empty table.  In the source the table updates are interleaved
with the replay, but the replay never reads the table, so the result is the
fold of the concatenated per-game observation streams. -/
def process_pgn_file (api : ChessAPI) (kt : KeyTable) (games : List Game)
    (min_elo : Int) (max_moves : Nat) : Positions :=
  ((games.map (gameObs api kt min_elo max_moves)).flatten).foldl addObs []

/-- Little-endian int.to_bytes(len, byteorder 'little'), value assumed in
range. -/
def to_bytes_le (n len : Nat) : List Nat :=
  (List.range len).map (fun i => n / 256 ^ i % 256)

/-- Big-endian int.to_bytes(len, byteorder 'big'), value assumed in range. -/
def to_bytes_be (n len : Nat) : List Nat :=
  (to_bytes_le n len).reverse

/-- The distinct OverflowError sites of write_book_file: each field conversion
int.to_bytes raises when the value does not fit its width. -/
inductive WriteError where
  | hashTooBig
  | sourceTooBig
  | targetTooBig
  | promotionTooBig
  | moveTypeTooBig
  | pieceTooBig
  | weightTooBig
  deriving DecidableEq

/-- Fallible int.to_bytes: the bytes when the value fits the width, the given
OverflowError otherwise. -/
def to_bytes_chk (n len : Nat) (err : WriteError) : Except WriteError (List Nat) :=
  if n < 256 ^ len then Except.ok (to_bytes_le n len) else Except.error err

/-- The magic constant 0x7262_6F6F_6B69_6E67 ("rbooking"). -/
def MAGIC : Nat := 0x72626F6F6B696E67

/-- The record written for one entry, lines 176-185: hash (8, LE), source (1),
target (1), promotion (1), move_type (1), piece (1), weight (2, LE), the
constant-zero learn field (2, LE), then the 7 zero bytes of padding. -/
def writeEntry (e : OpeningBookEntry) : Except WriteError (List Nat) := do
  let h ← to_bytes_chk e.hash 8 WriteError.hashTooBig
  let s ← to_bytes_chk e.source 1 WriteError.sourceTooBig
  let t ← to_bytes_chk e.target 1 WriteError.targetTooBig
  let p ← to_bytes_chk e.promotion 1 WriteError.promotionTooBig
  let mt ← to_bytes_chk e.move_type 1 WriteError.moveTypeTooBig
  let pc ← to_bytes_chk e.piece 1 WriteError.pieceTooBig
  let w ← to_bytes_chk e.weight 2 WriteError.weightTooBig
  Except.ok (h ++ s ++ t ++ p ++ mt ++ pc ++ w ++ to_bytes_le 0 2 ++ to_bytes_le 0 7)

/-- Write one bucket's entries in order, returning the bytes and how many
records were written. -/
def writeEntries : Bucket → Except WriteError (List Nat × Nat)
  | [] => Except.ok ([], 0)
  | q :: rest => do
    let r ← writeEntry q.2
    let rec' ← writeEntries rest
    Except.ok (r ++ rec'.1, rec'.2 + 1)

/-- Write every bucket in table order. -/
def writeAll : Positions → Except WriteError (List Nat × Nat)
  | [] => Except.ok ([], 0)
  | p :: rest => do
    let b ← writeEntries p.2
    let r ← writeAll rest
    Except.ok (b.1 ++ r.1, b.2 + r.2)

/-- write_book_file: the magic written big-endian, the version 1 written
little-endian on 4 bytes, then one record per entry in table iteration order.
The pair returned is the output bytes together with the entry count the
function reports. -/
def write_book_file (t : Positions) : Except WriteError (List Nat × Nat) := do
  let body ← writeAll t
  Except.ok (to_bytes_be MAGIC 8 ++ to_bytes_le 1 4 ++ body.1, body.2)

/-- The record layout as the spec's table gives it: position_hash 8 bytes LE,
the five single-byte fields, weight 2 bytes LE, the always-zero learn field
2 bytes LE, then zero-filled padding. -/
def specRecord (e : OpeningBookEntry) : List Nat :=
  to_bytes_le e.hash 8 ++ [e.source % 256] ++ [e.target % 256] ++
  [e.promotion % 256] ++ [e.move_type % 256] ++ [e.piece % 256] ++
  to_bytes_le e.weight 2 ++ to_bytes_le 0 2 ++ List.replicate 7 0

/-- The whole output as the spec describes it: the 8-byte magic
most-significant-byte first, the 4-byte version 1 least-significant-byte
first, then every entry's record. -/
def specBook (t : Positions) : List Nat :=
  to_bytes_be MAGIC 8 ++ to_bytes_le 1 4 ++
  (t.map (fun p => (p.2.map (fun q => specRecord q.2)).flatten)).flatten

/-- Skipping the empty squares inside the fold is the same as folding over the
occupied squares only. -/
lemma hashStep_foldl_filter (kt : KeyTable) (b : Board) :
    ∀ (l : List Nat) (h : Nat),
      l.foldl (hashStep kt b) h =
        (l.filter (fun sq => (b.piece_at sq).isSome)).foldl (hashStep kt b) h := by
  intro l
  induction l with
  | nil => intro h; rfl
  | cons sq rest ih =>
    intro h
    by_cases hq : (b.piece_at sq).isSome
    · simp [List.filter_cons, hq, List.foldl_cons, ih]
    · rw [Option.not_isSome_iff_eq_none] at hq
      simp [List.filter_cons, hq, List.foldl_cons, ih, hashStep]

/-- Folding the piece keys only reads the occupancy, square by square. -/
lemma hashStep_foldl_congr (kt : KeyTable) (b1 b2 : Board) :
    ∀ (l : List Nat) (h : Nat), (∀ sq ∈ l, b1.piece_at sq = b2.piece_at sq) →
      l.foldl (hashStep kt b1) h = l.foldl (hashStep kt b2) h := by
  intro l
  induction l with
  | nil => intro h _; rfl
  | cons sq rest ih =>
    intro h hag
    have hsq : b1.piece_at sq = b2.piece_at sq := hag sq (List.mem_cons_self sq rest)
    have hstep : hashStep kt b1 h sq = hashStep kt b2 h sq := by
      simp [hashStep, hsq]
    simp only [List.foldl_cons, hstep]
    exact ih _ (fun q hq => hag q (List.mem_cons_of_mem sq hq))

/-- C1.  The position hash is exactly the XOR-fold the spec describes (piece
keys over occupied squares with white kinds in rows 0-5 and black kinds in
rows 6-11, then the held castling rights' keys, then side_key on white's
turn), and it is a pure function of occupancy, castling rights and side to
move: two boards agreeing on those three components hash identically, no
matter their en-passant state or move counters. -/
theorem hash_matches_spec_and_pure (kt : KeyTable) (b1 b2 : Board)
    (hocc : ∀ sq, sq < 64 → b1.piece_at sq = b2.piece_at sq)
    (hwk : b1.castle_wk = b2.castle_wk) (hwq : b1.castle_wq = b2.castle_wq)
    (hbk : b1.castle_bk = b2.castle_bk) (hbq : b1.castle_bq = b2.castle_bq)
    (ht : b1.turn = b2.turn) :
    calculate_hash kt b1 = specHash kt b1 ∧
      calculate_hash kt b1 = calculate_hash kt b2 := by
  constructor
  · unfold calculate_hash specHash
    rw [hashStep_foldl_filter]
  · unfold calculate_hash
    rw [hashStep_foldl_congr kt b1 b2 (List.range 64) 0
      (fun sq hsq => hocc sq (List.mem_range.mp hsq)), hwk, hwq, hbk, hbq, ht]

/-- A small concrete key table for witnesses. -/
def ktW : KeyTable :=
  ⟨[[3, 5], [7]], [11, 13, 17, 19], 23⟩

/-- A concrete occupancy with one white pawn on square 0. -/
def occW : Nat → Option Piece :=
  fun sq => if sq = 0 then some ⟨1, true⟩ else none

/-- A concrete board. -/
def bW1 : Board :=
  ⟨occW, true, false, true, false, true, none, 0, 1⟩

/-- The same position with a different en-passant square and different move
counters. -/
def bW2 : Board :=
  ⟨occW, true, false, true, false, true, some 20, 7, 9⟩

/-- Witness for C1 at a concrete key table and two concrete boards differing
only in en-passant state and move counters. -/
theorem hash_matches_spec_and_pure_witness :
    calculate_hash ktW bW1 = specHash ktW bW1 ∧
      calculate_hash ktW bW1 = calculate_hash ktW bW2 :=
  hash_matches_spec_and_pure ktW bW1 bW2 (fun _ _ => rfl) rfl rfl rfl rfl rfl

/-- C2.  For any deterministic seed-to-draw-stream assignment (the random
module reseeded with seed s yields the draw stream randOf s), two invocations
of generate_zobrist_keys under the same seed produce bit-identical key
tables: the full 12 x 64 piece-key table, all four castling keys and the side
key coincide, and the table really has 12 rows of 64 keys. -/
theorem generate_deterministic (randOf : Nat → Nat → Nat) (s1 s2 : Nat)
    (hs : s1 = s2) :
    (generate_zobrist_keys (randOf s1)).piece_keys =
        (generate_zobrist_keys (randOf s2)).piece_keys ∧
      (generate_zobrist_keys (randOf s1)).castling_keys =
        (generate_zobrist_keys (randOf s2)).castling_keys ∧
      (generate_zobrist_keys (randOf s1)).side_key =
        (generate_zobrist_keys (randOf s2)).side_key ∧
      (generate_zobrist_keys (randOf s1)).piece_keys.length = 12 ∧
      (∀ row ∈ (generate_zobrist_keys (randOf s1)).piece_keys, row.length = 64) ∧
      (generate_zobrist_keys (randOf s1)).castling_keys.length = 4 := by
  subst hs
  refine ⟨rfl, rfl, rfl, by simp [generate_zobrist_keys], ?_, by simp [generate_zobrist_keys]⟩
  intro row hrow
  simp only [generate_zobrist_keys, List.mem_map] at hrow
  obtain ⟨i, _, hrw⟩ := hrow
  simp [← hrw]

/-- Witness for C2 at a concrete stream assignment and the engine's seed. -/
theorem generate_deterministic_witness :
    (generate_zobrist_keys ((fun s i => s + i) 1804289383)).piece_keys =
        (generate_zobrist_keys ((fun s i => s + i) 1804289383)).piece_keys ∧
      (generate_zobrist_keys ((fun s i => s + i) 1804289383)).castling_keys =
        (generate_zobrist_keys ((fun s i => s + i) 1804289383)).castling_keys ∧
      (generate_zobrist_keys ((fun s i => s + i) 1804289383)).side_key =
        (generate_zobrist_keys ((fun s i => s + i) 1804289383)).side_key ∧
      (generate_zobrist_keys ((fun s i => s + i) 1804289383)).piece_keys.length = 12 ∧
      (∀ row ∈ (generate_zobrist_keys ((fun s i => s + i) 1804289383)).piece_keys,
        row.length = 64) ∧
      (generate_zobrist_keys ((fun s i => s + i) 1804289383)).castling_keys.length = 4 :=
  generate_deterministic (fun s i => s + i) 1804289383 1804289383 rfl

/-- C3.  The classifier follows exactly the spec's precedence, first match
wins: capture 1, then castling 6, then promotion 2, then double pawn push 4,
else quiet 0; in particular a capturing promotion classifies as a capture.
The moving-piece code is the moving piece's kind plus 6 when it is black. -/
theorem move_classification_precedence (api : ChessAPI) (b : Board) (m : Move)
    (p : Piece) (hp : b.piece_at m.from_square = some p) :
    (api.is_capture b m = true → get_move_type api b m = 1) ∧
      (api.is_capture b m = false → api.is_castling b m = true →
        get_move_type api b m = 6) ∧
      (api.is_capture b m = false → api.is_castling b m = false →
        m.promotion.isSome = true → get_move_type api b m = 2) ∧
      (api.is_capture b m = false → api.is_castling b m = false →
        m.promotion = none → piece_type_at b m.from_square = some 1 →
        absDiff m = 16 → get_move_type api b m = 4) ∧
      (api.is_capture b m = false → api.is_castling b m = false →
        m.promotion = none →
        ¬(piece_type_at b m.from_square = some 1 ∧ absDiff m = 16) →
        get_move_type api b m = 0) ∧
      (api.is_capture b m = true → m.promotion.isSome = true →
        get_move_type api b m = 1) ∧
      get_piece_type b m.from_square = p.piece_type + (if p.color then 0 else 6) := by
  refine ⟨?_, ?_, ?_, ?_, ?_, ?_, ?_⟩
  · intro hc; simp [get_move_type, hc]
  · intro hc hcl; simp [get_move_type, hc, hcl]
  · intro hc hcl hpr; simp [get_move_type, hc, hcl, hpr]
  · intro hc hcl hpr hpawn hd
    simp [get_move_type, hc, hcl, hpr, hpawn, hd]
  · intro hc hcl hpr hnot
    simp [get_move_type, hc, hcl, hpr, hnot]
  · intro hc _; simp [get_move_type, hc]
  · simp [get_piece_type, hp]

/-- A concrete external-collaborator instance where every move is a capture
and none is a castling. -/
def apiW : ChessAPI :=
  ⟨fun _ _ => true, fun _ _ => false, fun b _ => b⟩

/-- A concrete move from square 0 to square 8 carrying a queen promotion. -/
def mW : Move :=
  ⟨0, 8, some 5⟩

/-- Witness for C3: on a concrete board, a move that is both a capture and a
promotion classifies as a capture, and the white pawn's code is 1. -/
theorem move_classification_precedence_witness :
    get_move_type apiW bW1 mW = 1 ∧
      get_piece_type bW1 mW.from_square =
        (⟨1, true⟩ : Piece).piece_type + (if (⟨1, true⟩ : Piece).color then 0 else 6) := by
  have h := move_classification_precedence apiW bW1 mW ⟨1, true⟩ rfl
  exact ⟨h.2.2.2.2.2.1 rfl rfl, h.2.2.2.2.2.2⟩

lemma lookupKey_append_single {α β : Type} [DecidableEq α]
    (l : List (α × β)) (k : α) (v : β) (key : α) :
    lookupKey (l ++ [(k, v)]) key =
      match lookupKey l key with
      | some x => some x
      | none => if k = key then some v else none := by
  induction l with
  | nil => simp [lookupKey]
  | cons hd rest ih =>
    obtain ⟨a, w⟩ := hd
    by_cases ha : a = key
    · simp [lookupKey, ha]
    · simp [lookupKey, ha, ih]

lemma lookupKey_updateKey {α β : Type} [DecidableEq α]
    (f : β → β) (l : List (α × β)) (k key : α) :
    lookupKey (updateKey f l k) key =
      if k = key then Option.map f (lookupKey l key) else lookupKey l key := by
  induction l with
  | nil => simp [lookupKey, updateKey]
  | cons hd rest ih =>
    obtain ⟨a, w⟩ := hd
    by_cases hak : a = k
    · subst hak
      by_cases hkey : a = key
      · subst hkey; simp [lookupKey, updateKey]
      · simp [lookupKey, updateKey, hkey]
    · by_cases hkey : a = key
      · subst hkey
        have hk : ¬k = a := fun hh => hak hh.symm
        simp [lookupKey, updateKey, hak, hk]
      · simp [lookupKey, updateKey, hak, hkey, ih]

/-- What one bucket looks up to after recording an observation. -/
lemma lookupKey_bucketAdd (b : Bucket) (o : Obs) (k : MoveKey) :
    lookupKey (bucketAdd b o) k =
      if moveKeyOf o = k then
        some (match lookupKey b (moveKeyOf o) with
              | some e => increment_weight e
              | none => newEntry o)
      else lookupKey b k := by
  unfold bucketAdd
  cases hin : lookupKey b (moveKeyOf o) with
  | some e =>
    rw [lookupKey_updateKey]
    by_cases hk : moveKeyOf o = k
    · subst hk; rw [if_pos rfl, if_pos rfl, hin]; rfl
    · rw [if_neg hk, if_neg hk]
  | none =>
    rw [lookupKey_append_single]
    by_cases hk : moveKeyOf o = k
    · subst hk; simp [hin]
    · rw [if_neg hk]
      cases hbk : lookupKey b k <;> simp [hk]

/-- What the outer table looks up to after recording an observation. -/
lemma lookupKey_addObs (t : Positions) (o : Obs) (h : Nat) :
    lookupKey (addObs t o) h =
      if o.hash = h then some (bucketAdd ((lookupKey t o.hash).getD []) o)
      else lookupKey t h := by
  unfold addObs
  cases hout : lookupKey t o.hash with
  | some b =>
    rw [lookupKey_updateKey]
    by_cases hh : o.hash = h
    · subst hh; rw [if_pos rfl, if_pos rfl, hout]; rfl
    · rw [if_neg hh, if_neg hh]
  | none =>
    rw [lookupKey_append_single]
    by_cases hh : o.hash = h
    · subst hh; simp [hout]
    · rw [if_neg hh]
      cases hth : lookupKey t h <;> simp [hh]

/-- Recording an observation leaves every other identity untouched. -/
lemma lookupT_addObs_miss (t : Positions) (o : Obs) (h : Nat) (k : MoveKey)
    (hne : ¬(o.hash = h ∧ moveKeyOf o = k)) :
    lookupT (addObs t o) h k = lookupT t h k := by
  unfold lookupT
  rw [lookupKey_addObs]
  by_cases hh : o.hash = h
  · subst hh
    rw [if_pos rfl]
    simp only [Option.some_bind]
    have hk : ¬moveKeyOf o = k := fun hkk => hne ⟨rfl, hkk⟩
    rw [lookupKey_bucketAdd, if_neg hk]
    cases hout : lookupKey t o.hash <;> simp [lookupKey]
  · rw [if_neg hh]

/-- Recording an observation whose identity is already present increments that
entry's weight in place. -/
lemma lookupT_addObs_hit_some (t : Positions) (o : Obs) (e : OpeningBookEntry)
    (he : lookupT t o.hash (moveKeyOf o) = some e) :
    lookupT (addObs t o) o.hash (moveKeyOf o) = some (increment_weight e) := by
  unfold lookupT at he ⊢
  rw [lookupKey_addObs, if_pos rfl]
  simp only [Option.some_bind]
  rw [lookupKey_bucketAdd, if_pos rfl]
  cases hout : lookupKey t o.hash with
  | none => rw [hout] at he; simp at he
  | some b =>
    rw [hout] at he
    simp only [Option.some_bind] at he
    simp [hout, he]

/-- Recording an observation with a fresh identity inserts a weight-1 entry
built from that observation. -/
lemma lookupT_addObs_hit_none (t : Positions) (o : Obs)
    (he : lookupT t o.hash (moveKeyOf o) = none) :
    lookupT (addObs t o) o.hash (moveKeyOf o) = some (newEntry o) := by
  unfold lookupT at he ⊢
  rw [lookupKey_addObs, if_pos rfl]
  simp only [Option.some_bind]
  rw [lookupKey_bucketAdd, if_pos rfl]
  cases hout : lookupKey t o.hash with
  | none => simp [hout, lookupKey]
  | some b =>
    rw [hout] at he
    simp only [Option.some_bind] at he
    simp [hout, he]

lemma identCount_cons (o : Obs) (L : List Obs) (h : Nat) (k : MoveKey) :
    identCount (o :: L) h k =
      if o.hash = h ∧ moveKeyOf o = k then identCount L h k + 1
      else identCount L h k := by
  by_cases hm : o.hash = h ∧ moveKeyOf o = k
  · simp [identCount, List.filter_cons, matchesIdent, hm]
  · simp [identCount, List.filter_cons, matchesIdent, hm]

lemma firstIdent_cons (o : Obs) (L : List Obs) (h : Nat) (k : MoveKey) :
    firstIdent (o :: L) h k =
      if o.hash = h ∧ moveKeyOf o = k then some o else firstIdent L h k := by
  by_cases hm : o.hash = h ∧ moveKeyOf o = k
  · simp [firstIdent, List.filter_cons, matchesIdent, hm]
  · simp [firstIdent, List.filter_cons, matchesIdent, hm]

/-- What an identity's entry looks like after folding a stream of
observations on top of a table that already answers prev for it. -/
def mergeResult (prev : Option OpeningBookEntry) (L : List Obs) (h : Nat)
    (k : MoveKey) : Option OpeningBookEntry :=
  match prev with
  | some e =>
    some ⟨e.hash, e.source, e.target, e.promotion, e.move_type, e.piece,
      e.weight + identCount L h k⟩
  | none =>
    match firstIdent L h k with
    | none => none
    | some o => some (entryWithWeight o (identCount L h k))

lemma lookupT_foldl (h : Nat) (k : MoveKey) :
    ∀ (L : List Obs) (t : Positions),
      lookupT (L.foldl addObs t) h k = mergeResult (lookupT t h k) L h k := by
  intro L
  induction L with
  | nil =>
    intro t
    simp only [List.foldl_nil]
    cases he : lookupT t h k with
    | none => simp [mergeResult, firstIdent, identCount]
    | some e =>
      obtain ⟨eh, es, et, ep, em, ec, ew⟩ := e
      simp [mergeResult, identCount, firstIdent]
  | cons o L' ih =>
    intro t
    rw [List.foldl_cons, ih (addObs t o)]
    by_cases hm : o.hash = h ∧ moveKeyOf o = k
    · obtain ⟨hmh, hmk⟩ := hm
      subst hmh; subst hmk
      cases he : lookupT t o.hash (moveKeyOf o) with
      | some e =>
        rw [lookupT_addObs_hit_some t o e he]
        simp only [mergeResult, increment_weight]
        rw [identCount_cons, if_pos ⟨rfl, rfl⟩]
        simp only [Option.some.injEq, OpeningBookEntry.mk.injEq]
        refine ⟨trivial, trivial, trivial, trivial, trivial, trivial, ?_⟩
        omega
      | none =>
        rw [lookupT_addObs_hit_none t o he]
        simp only [mergeResult, newEntry]
        rw [identCount_cons, if_pos ⟨rfl, rfl⟩, firstIdent_cons, if_pos ⟨rfl, rfl⟩]
        simp [entryWithWeight, Nat.add_comm]
    · rw [lookupT_addObs_miss t o h k hm]
      cases hlt : lookupT t h k with
      | some e =>
        simp only [mergeResult]
        rw [identCount_cons, if_neg hm]
      | none =>
        simp only [mergeResult]
        rw [identCount_cons, if_neg hm, firstIdent_cons, if_neg hm]

/-- C4.  Observations sharing an identity key merge into a single entry: an
identity never observed is absent; an identity observed n > 0 times is stored
as one entry whose weight is exactly n and whose remaining fields are those
of the first observation of that identity. -/
theorem aggregation_weight_counts (L : List Obs) (h : Nat) (k : MoveKey) :
    (identCount L h k = 0 → lookupT (ingest L) h k = none) ∧
      (0 < identCount L h k →
        ∃ o, firstIdent L h k = some o ∧
          lookupT (ingest L) h k = some (entryWithWeight o (identCount L h k))) := by
  have hbase : lookupT ([] : Positions) h k = none := rfl
  have hfold := lookupT_foldl h k L []
  rw [hbase] at hfold
  constructor
  · intro hz
    have hfe : L.filter (fun o => matchesIdent o h k) = [] :=
      List.length_eq_zero.mp hz
    unfold ingest
    rw [hfold]
    simp [mergeResult, firstIdent, hfe]
  · intro hpos
    cases hf : firstIdent L h k with
    | none =>
      exfalso
      unfold firstIdent at hf
      rw [List.head?_eq_none_iff] at hf
      unfold identCount at hpos
      rw [hf] at hpos
      exact absurd hpos (by simp)
    | some o =>
      refine ⟨o, rfl, ?_⟩
      unfold ingest
      rw [hfold]
      simp [mergeResult, hf]

/-- A concrete observation: the move e2-e4 (squares 12 to 28) by a white pawn
from a position hashing to 100. -/
def oW1 : Obs :=
  ⟨100, 12, 28, 0, 4, 1⟩

/-- A second concrete observation at the same position: b1-c3 (squares 1 to
18) by a white knight. -/
def oW2 : Obs :=
  ⟨100, 1, 18, 0, 0, 2⟩

/-- An observation stream in which oW1 occurs twice (two admitted games
opening the same way) and oW2 once. -/
def LW : List Obs :=
  [oW1, oW2, oW1]

/-- Witness for C4: in the concrete stream the twice-observed identity is
stored once with weight 2 and the fields of its first observation. -/
theorem aggregation_weight_counts_witness :
    0 < identCount LW 100 (12, 28, 0, 4, 1) ∧
      ∃ o, firstIdent LW 100 (12, 28, 0, 4, 1) = some o ∧
        lookupT (ingest LW) 100 (12, 28, 0, 4, 1) =
          some (entryWithWeight o (identCount LW 100 (12, 28, 0, 4, 1))) :=
  ⟨by decide, (aggregation_weight_counts LW 100 (12, 28, 0, 4, 1)).2 (by decide)⟩

/-- An entry agrees with the keys it is stored under and carries a positive
weight. -/
def entryMatches (h : Nat) (k : MoveKey) (e : OpeningBookEntry) : Prop :=
  e.hash = h ∧ e.source = k.1 ∧ e.target = k.2.1 ∧ e.promotion = k.2.2.1 ∧
    e.move_type = k.2.2.2.1 ∧ e.piece = k.2.2.2.2 ∧ 1 ≤ e.weight

/-- The table self-consistency invariant: every stored entry agrees with its
outer and inner keys and has weight at least 1. -/
def tableInv (t : Positions) : Prop :=
  ∀ p ∈ t, ∀ q ∈ p.2, entryMatches p.1 q.1 q.2

lemma mem_updateKey {α β : Type} [DecidableEq α] (f : β → β)
    (l : List (α × β)) (k : α) (x : α × β) (hx : x ∈ updateKey f l k) :
    x ∈ l ∨ ∃ v, (k, v) ∈ l ∧ x = (k, f v) := by
  induction l with
  | nil => cases hx
  | cons hd rest ih =>
    obtain ⟨a, w⟩ := hd
    by_cases hak : a = k
    · subst hak
      rw [updateKey, if_pos rfl] at hx
      rcases List.mem_cons.mp hx with hx1 | hx2
      · exact Or.inr ⟨w, List.mem_cons_self _ _, hx1⟩
      · exact Or.inl (List.mem_cons_of_mem _ hx2)
    · rw [updateKey, if_neg hak] at hx
      rcases List.mem_cons.mp hx with hx1 | hx2
      · exact Or.inl (hx1 ▸ List.mem_cons_self _ _)
      · rcases ih hx2 with hl | ⟨v, hv, hxv⟩
        · exact Or.inl (List.mem_cons_of_mem _ hl)
        · exact Or.inr ⟨v, List.mem_cons_of_mem _ hv, hxv⟩

lemma mem_bucketAdd (b : Bucket) (o : Obs) (x : MoveKey × OpeningBookEntry)
    (hx : x ∈ bucketAdd b o) :
    x ∈ b ∨ (∃ e, (moveKeyOf o, e) ∈ b ∧ x = (moveKeyOf o, increment_weight e)) ∨
      x = (moveKeyOf o, newEntry o) := by
  unfold bucketAdd at hx
  cases hin : lookupKey b (moveKeyOf o) with
  | some e =>
    rw [hin] at hx
    rcases mem_updateKey increment_weight b (moveKeyOf o) x hx with hl | ⟨v, hv, hxv⟩
    · exact Or.inl hl
    · exact Or.inr (Or.inl ⟨v, hv, hxv⟩)
  | none =>
    rw [hin] at hx
    rcases List.mem_append.mp hx with hl | hr
    · exact Or.inl hl
    · exact Or.inr (Or.inr (List.mem_singleton.mp hr))

lemma mem_addObs (t : Positions) (o : Obs) (x : Nat × Bucket)
    (hx : x ∈ addObs t o) :
    x ∈ t ∨ ∃ b, x = (o.hash, bucketAdd b o) ∧ ((o.hash, b) ∈ t ∨ b = []) := by
  unfold addObs at hx
  cases hout : lookupKey t o.hash with
  | some b =>
    rw [hout] at hx
    rcases mem_updateKey (fun bb => bucketAdd bb o) t o.hash x hx with hl | ⟨v, hv, hxv⟩
    · exact Or.inl hl
    · exact Or.inr ⟨v, hxv, Or.inl hv⟩
  | none =>
    rw [hout] at hx
    rcases List.mem_append.mp hx with hl | hr
    · exact Or.inl hl
    · exact Or.inr ⟨[], List.mem_singleton.mp hr, Or.inr rfl⟩

/-- Every entry a bucketAdd can produce satisfies the invariant at the
bucket's hash, provided the bucket's previous entries did. -/
lemma entryMatches_bucketAdd (b : Bucket) (o : Obs)
    (hb : ∀ q ∈ b, entryMatches o.hash q.1 q.2) :
    ∀ q ∈ bucketAdd b o, entryMatches o.hash q.1 q.2 := by
  intro q hq
  rcases mem_bucketAdd b o q hq with hl | ⟨e, he, hqe⟩ | hnew
  · exact hb q hl
  · subst hqe
    have := hb (moveKeyOf o, e) he
    unfold entryMatches at this ⊢
    unfold increment_weight moveKeyOf at *
    simp only at *
    exact ⟨this.1, this.2.1, this.2.2.1, this.2.2.2.1, this.2.2.2.2.1,
      this.2.2.2.2.2.1, by omega⟩
  · subst hnew
    unfold entryMatches newEntry moveKeyOf
    exact ⟨rfl, rfl, rfl, rfl, rfl, rfl, le_refl 1⟩

/-- Recording an observation preserves the invariant. -/
lemma tableInv_addObs (t : Positions) (o : Obs) (hinv : tableInv t) :
    tableInv (addObs t o) := by
  intro p hp q hq
  rcases mem_addObs t o p hp with hl | ⟨b, hpb, hborig⟩
  · exact hinv p hl q hq
  · subst hpb
    have hb : ∀ r ∈ b, entryMatches o.hash r.1 r.2 := by
      rcases hborig with hmem | hnil
      · exact fun r hr => hinv (o.hash, b) hmem r hr
      · subst hnil; intro r hr; cases hr
    exact entryMatches_bucketAdd b o hb q hq

lemma tableInv_foldl (L : List Obs) :
    ∀ (t : Positions), tableInv t → tableInv (L.foldl addObs t) := by
  induction L with
  | nil => intro t ht; simpa using ht
  | cons o L' ih =>
    intro t ht
    rw [List.foldl_cons]
    exact ih (addObs t o) (tableInv_addObs t o ht)

/-- C10.  Table self-consistency: recording an observation preserves the
invariant that every stored entry's fields equal its outer hash key and its
inner move-key components with weight at least 1, and every table produced by
ingesting a stream of observations satisfies it. -/
theorem table_invariant_preserved :
    (∀ (t : Positions) (o : Obs), tableInv t → tableInv (addObs t o)) ∧
      ∀ (L : List Obs), tableInv (ingest L) := by
  refine ⟨tableInv_addObs, ?_⟩
  intro L
  exact tableInv_foldl L [] (fun p hp => absurd hp (List.not_mem_nil p))

/-- Witness for C10: inserting a concrete observation into the empty table
satisfies the invariant. -/
theorem table_invariant_preserved_witness :
    tableInv (addObs [] oW1) :=
  table_invariant_preserved.1 [] oW1 (fun p hp => absurd hp (List.not_mem_nil p))

/-- The uncapped observation sequence: one observation per move, each taken
on the board before its move is applied. -/
def obsSeq (api : ChessAPI) (kt : KeyTable) : Board → List Move → List Obs
  | _, [] => []
  | b, m :: ms => mkObs api kt b m :: obsSeq api kt (api.push b m) ms

/-- The replay loop is the uncapped sequence of the first maxm - count moves. -/
lemma replayObs_eq_obsSeq_take (api : ChessAPI) (kt : KeyTable) :
    ∀ (ms : List Move) (b : Board) (count maxm : Nat),
      replayObs api kt b ms count maxm =
        obsSeq api kt b (ms.take (maxm - count)) := by
  intro ms
  induction ms with
  | nil => intro b count maxm; simp [replayObs, obsSeq]
  | cons m rest ih =>
    intro b count maxm
    by_cases hc : maxm ≤ count
    · have h0 : maxm - count = 0 := by omega
      simp [replayObs, hc, h0, obsSeq]
    · have hstep : maxm - count = (maxm - (count + 1)) + 1 := by omega
      rw [replayObs, if_neg hc, hstep, List.take_succ_cons, obsSeq, ih]

lemma obsSeq_length (api : ChessAPI) (kt : KeyTable) :
    ∀ (ms : List Move) (b : Board), (obsSeq api kt b ms).length = ms.length := by
  intro ms
  induction ms with
  | nil => intro b; rfl
  | cons m rest ih => intro b; simp [obsSeq, ih]

lemma obsSeq_getElem? (api : ChessAPI) (kt : KeyTable) :
    ∀ (ms : List Move) (b : Board) (i : Nat),
      (obsSeq api kt b ms)[i]? =
        (ms[i]?).map (fun m => mkObs api kt (pushAll api b (ms.take i)) m) := by
  intro ms
  induction ms with
  | nil => intro b i; simp [obsSeq]
  | cons m rest ih =>
    intro b i
    cases i with
    | zero => simp [obsSeq, pushAll]
    | succ j =>
      simp only [obsSeq, List.getElem?_cons_succ, List.take_succ_cons]
      rw [ih (api.push b m) j]
      rfl

/-- C8.  Replay derives exactly one observation per ply of index below
max_moves (so min max_moves n of them for an n-move game, none at index
max_moves or beyond), and the observation at ply i is built on the board
obtained by applying the first i moves -- its hash is the hash of the
position before move i, which is pushed only afterwards. -/
theorem ply_cap_and_hash_before_move (api : ChessAPI) (kt : KeyTable)
    (b : Board) (moves : List Move) (maxm : Nat) :
    (replayObs api kt b moves 0 maxm).length = min maxm moves.length ∧
      (∀ i, maxm ≤ i → (replayObs api kt b moves 0 maxm)[i]? = none) ∧
      (∀ i m, i < maxm → moves[i]? = some m →
        (replayObs api kt b moves 0 maxm)[i]? =
          some (mkObs api kt (pushAll api b (moves.take i)) m)) := by
  have hrw : replayObs api kt b moves 0 maxm = obsSeq api kt b (moves.take maxm) := by
    rw [replayObs_eq_obsSeq_take api kt moves b 0 maxm, Nat.sub_zero]
  refine ⟨?_, ?_, ?_⟩
  · rw [hrw, obsSeq_length, List.length_take]
  · intro i hi
    rw [hrw]
    apply List.getElem?_eq_none
    rw [obsSeq_length, List.length_take]
    omega
  · intro i m hi hm
    rw [hrw, obsSeq_getElem?]
    have htk : (moves.take maxm)[i]? = some m := by
      rw [List.getElem?_take_of_lt hi]
      exact hm
    rw [htk]
    simp only [Option.map_some']
    have htt : (moves.take maxm).take i = moves.take i := by
      rw [List.take_take]
      congr 1
      omega
    rw [htt]

/-- A second concrete move. -/
def mW2 : Move :=
  ⟨1, 18, none⟩

/-- Witness for C8: with a two-move game and a one-ply cap the replay keeps
exactly the first ply, records no second observation, and the recorded
observation is built on the starting board. -/
theorem ply_cap_and_hash_before_move_witness :
    (replayObs apiW ktW bW1 [mW, mW2] 0 1).length = min 1 ([mW, mW2] : List Move).length ∧
      (replayObs apiW ktW bW1 [mW, mW2] 0 1)[1]? = none ∧
      (replayObs apiW ktW bW1 [mW, mW2] 0 1)[0]? =
        some (mkObs apiW ktW (pushAll apiW bW1 (([mW, mW2] : List Move).take 0)) mW) := by
  have h := ply_cap_and_hash_before_move apiW ktW bW1 [mW, mW2] 1
  exact ⟨h.1, h.2.1 1 (by decide), h.2.2 0 mW (by decide) rfl⟩

/-- A concrete game with the WhiteElo tag absent, a high black rating, and one
mainline move. -/
def gMissing : Game :=
  ⟨none, some "3000", bW1, [mW]⟩

/-- Counterexample to C7 as stated: with min_rating = 0 a game whose white
rating is missing is admitted -- the missing tag reads as "0", 0 is not below
0, and the game contributes an entry to the table. -/
theorem admission_filter_counterexample :
    process_pgn_file apiW ktW [gMissing] 0 20 ≠ [] := by
  intro hcontra
  have hlen : (process_pgn_file apiW ktW [gMissing] 0 20).length = 1 := by decide
  rw [hcontra] at hlen
  exact absurd hlen (by decide)

/-- A concrete game carrying the non-numeric rating tag "?". -/
def gBadTag : Game :=
  ⟨some "?", some "2500", bW1, [mW]⟩

/-- C7 amended.  A game whose rating tag fails to parse as an integer
contributes zero observations for every min_rating; a game with a missing
rating tag reads as rating 0 and so contributes zero observations whenever
min_rating is positive (in particular at the default 2200); a game whose
lower parsed rating is below min_rating contributes zero observations; and a
game contributing zero observations leaves the table of any run exactly as if
it were absent, with processing continuing over the remaining games. -/
theorem admission_filter_amended (api : ChessAPI) (kt : KeyTable)
    (minr : Int) (maxm : Nat) (g : Game) :
    (parseIntStr (g.whiteElo.getD "0") = none ∨
        parseIntStr (g.blackElo.getD "0") = none →
      gameObs api kt minr maxm g = []) ∧
      (g.whiteElo = none ∨ g.blackElo = none → 0 < minr →
        gameObs api kt minr maxm g = []) ∧
      (∀ w bl, parseIntStr (g.whiteElo.getD "0") = some w →
        parseIntStr (g.blackElo.getD "0") = some bl → min w bl < minr →
        gameObs api kt minr maxm g = []) ∧
      (∀ gs1 gs2, gameObs api kt minr maxm g = [] →
        process_pgn_file api kt (gs1 ++ g :: gs2) minr maxm =
          process_pgn_file api kt (gs1 ++ gs2) minr maxm) := by
  refine ⟨?_, ?_, ?_, ?_⟩
  · intro hnone
    unfold gameObs
    rcases hnone with hw | hb
    · rw [hw]
    · rw [hb]
      cases parseIntStr (g.whiteElo.getD "0") <;> rfl
  · intro hmiss hpos
    unfold gameObs
    have h0 : parseIntStr "0" = some 0 := by decide
    rcases hmiss with hw | hb
    · rw [hw]
      simp only [Option.getD_none, h0]
      cases hbl : parseIntStr (g.blackElo.getD "0") with
      | none => rfl
      | some bl =>
        have hlt : min (0 : Int) bl < minr := lt_of_le_of_lt (min_le_left 0 bl) hpos
        show (if min (0 : Int) bl < minr then ([] : List Obs)
          else replayObs api kt g.start g.moves 0 maxm) = []
        rw [if_pos hlt]
    · rw [hb]
      simp only [Option.getD_none, h0]
      cases hwl : parseIntStr (g.whiteElo.getD "0") with
      | none => rfl
      | some w =>
        have hlt : min w (0 : Int) < minr := lt_of_le_of_lt (min_le_right w 0) hpos
        show (if min w (0 : Int) < minr then ([] : List Obs)
          else replayObs api kt g.start g.moves 0 maxm) = []
        rw [if_pos hlt]
  · intro w bl hw hb hlt
    unfold gameObs
    rw [hw, hb]
    show (if min w bl < minr then ([] : List Obs)
      else replayObs api kt g.start g.moves 0 maxm) = []
    rw [if_pos hlt]
  · intro gs1 gs2 hg
    unfold process_pgn_file
    rw [List.map_append, List.map_append, List.map_cons, hg,
      List.flatten_append, List.flatten_append, List.flatten_cons,
      List.nil_append]

/-- A concrete game with ratings 2000 and 2500. -/
def gLow : Game :=
  ⟨some "2000", some "2500", bW1, [mW]⟩

/-- Witness for C7 amended: the "?" rating game is skipped at the default
threshold, the missing-rating game is skipped at the default threshold, and
a game of ratings 2000 and 2500 is skipped at threshold 2200. -/
theorem admission_filter_amended_witness :
    gameObs apiW ktW 2200 20 gBadTag = [] ∧
      gameObs apiW ktW 2200 20 gMissing = [] ∧
      gameObs apiW ktW 2200 20 gLow = [] ∧
      process_pgn_file apiW ktW ([] ++ gBadTag :: [gLow]) 2200 20 =
        process_pgn_file apiW ktW ([] ++ [gLow]) 2200 20 :=
  ⟨(admission_filter_amended apiW ktW 2200 20 gBadTag).1 (Or.inl (by decide)),
   (admission_filter_amended apiW ktW 2200 20 gMissing).2.1 (Or.inl rfl) (by decide),
   (admission_filter_amended apiW ktW 2200 20 gLow).2.2.1 2000 2500 (by decide) (by decide)
     (by decide),
   (admission_filter_amended apiW ktW 2200 20 gBadTag).2.2.2 [] [gLow]
     ((admission_filter_amended apiW ktW 2200 20 gBadTag).1 (Or.inl (by decide)))⟩

lemma bind_ok_eq {α β : Type} (x : α) (f : α → Except WriteError β) :
    (Except.ok x >>= f) = f x := rfl

lemma bind_error_eq {α β : Type} (err : WriteError) (f : α → Except WriteError β) :
    ((Except.error err : Except WriteError α) >>= f) = Except.error err := rfl

lemma to_bytes_le_one (n : Nat) : to_bytes_le n 1 = [n % 256] := by
  have hr : List.range 1 = [0] := rfl
  simp [to_bytes_le, hr]

lemma to_bytes_le_zero_replicate (len : Nat) :
    to_bytes_le 0 len = List.replicate len 0 := by
  simp [to_bytes_le]

/-- An entry whose fields all fit their widths serializes to exactly the
spec's record layout. -/
lemma writeEntry_ok (e : OpeningBookEntry) (h1 : e.hash < 256 ^ 8)
    (h2 : e.source < 256) (h3 : e.target < 256) (h4 : e.promotion < 256)
    (h5 : e.move_type < 256) (h6 : e.piece < 256) (h7 : e.weight < 256 ^ 2) :
    writeEntry e = Except.ok (specRecord e) := by
  have h2' : e.source < 256 ^ 1 := by simpa using h2
  have h3' : e.target < 256 ^ 1 := by simpa using h3
  have h4' : e.promotion < 256 ^ 1 := by simpa using h4
  have h5' : e.move_type < 256 ^ 1 := by simpa using h5
  have h6' : e.piece < 256 ^ 1 := by simpa using h6
  simp only [writeEntry, to_bytes_chk, if_pos h1, if_pos h2', if_pos h3', if_pos h4',
    if_pos h5', if_pos h6', if_pos h7, bind_ok_eq]
  simp only [specRecord, to_bytes_le_one, to_bytes_le_zero_replicate]

/-- A bucket all of whose entries serialize cleanly writes its records in
order and reports one record per entry. -/
lemma writeEntries_ok (b : Bucket)
    (hok : ∀ q ∈ b, writeEntry q.2 = Except.ok (specRecord q.2)) :
    writeEntries b =
      Except.ok ((b.map (fun q => specRecord q.2)).flatten, b.length) := by
  induction b with
  | nil => rfl
  | cons q rest ih =>
    rw [writeEntries, hok q (List.mem_cons_self q rest), bind_ok_eq,
      ih (fun r hr => hok r (List.mem_cons_of_mem q hr)), bind_ok_eq]
    simp

lemma writeAll_ok (t : Positions)
    (hok : ∀ p ∈ t, ∀ q ∈ p.2, writeEntry q.2 = Except.ok (specRecord q.2)) :
    writeAll t =
      Except.ok
        ((t.map (fun p => (p.2.map (fun q => specRecord q.2)).flatten)).flatten,
          (t.map (fun p => p.2.length)).sum) := by
  induction t with
  | nil => rfl
  | cons p rest ih =>
    rw [writeAll, writeEntries_ok p.2 (hok p (List.mem_cons_self p rest)), bind_ok_eq,
      ih (fun r hr => hok r (List.mem_cons_of_mem p hr)), bind_ok_eq]
    simp

/-- The usual in-range hypothesis: every field of every stored entry fits the
byte width the writer gives it. -/
def fieldsFit (t : Positions) : Prop :=
  ∀ p ∈ t, ∀ q ∈ p.2,
    q.2.hash < 256 ^ 8 ∧ q.2.source < 256 ∧ q.2.target < 256 ∧
      q.2.promotion < 256 ∧ q.2.move_type < 256 ∧ q.2.piece < 256 ∧
      q.2.weight < 256 ^ 2

lemma write_book_file_ok (t : Positions) (hfit : fieldsFit t) :
    write_book_file t =
      Except.ok (specBook t, (t.map (fun p => p.2.length)).sum) := by
  have hok : ∀ p ∈ t, ∀ q ∈ p.2, writeEntry q.2 = Except.ok (specRecord q.2) := by
    intro p hp q hq
    obtain ⟨a1, a2, a3, a4, a5, a6, a7⟩ := hfit p hp q hq
    exact writeEntry_ok q.2 a1 a2 a3 a4 a5 a6 a7
  rw [write_book_file, writeAll_ok t hok, bind_ok_eq, specBook]

/-- C5.  When every field fits its width, the writer's output is exactly the
spec's layout: the 8-byte magic most-significant-byte first, the 4-byte
version 1 least-significant-byte first, then for each entry one record of
position_hash (8 bytes LE), source, target, promotion, move_type, piece (one
byte each), weight (2 bytes LE), an always-zero 2-byte LE learn field, and
zero-filled padding. -/
theorem book_bytes_layout (t : Positions) (hfit : fieldsFit t) :
    write_book_file t =
      Except.ok (specBook t, (t.map (fun p => p.2.length)).sum) :=
  write_book_file_ok t hfit

/-- A concrete one-entry table. -/
def tW1 : Positions :=
  [(100, [((12, 28, 0, 4, 1), ⟨100, 12, 28, 0, 4, 1, 2⟩)])]

/-- Witness for C5 at the concrete one-entry table. -/
theorem book_bytes_layout_witness :
    write_book_file tW1 =
      Except.ok (specBook tW1, (tW1.map (fun p => p.2.length)).sum) :=
  book_bytes_layout tW1 (by unfold fieldsFit; decide)

/-- C6.  When every field fits its width and every bucket's inner keys are
pairwise distinct (as dictionary buckets always are), the writer succeeds and
the count it reports equals the sum over all position buckets of the number
of distinct move-identities recorded in that bucket. -/
theorem record_count_eq_sum (t : Positions) (hfit : fieldsFit t)
    (hnodup : ∀ p ∈ t, (p.2.map Prod.fst).Nodup) :
    ∃ bs, write_book_file t =
      Except.ok (bs, (t.map (fun p => ((p.2.map Prod.fst).dedup).length)).sum) := by
  refine ⟨specBook t, ?_⟩
  rw [write_book_file_ok t hfit]
  have hmap : t.map (fun p => p.2.length) =
      t.map (fun p => ((p.2.map Prod.fst).dedup).length) := by
    apply List.map_congr_left
    intro p hp
    rw [List.Nodup.dedup (hnodup p hp), List.length_map]
  rw [hmap]

/-- A concrete table: one bucket holding two distinct move-identities and a
second bucket holding one. -/
def tW2 : Positions :=
  [(100, [((12, 28, 0, 4, 1), ⟨100, 12, 28, 0, 4, 1, 2⟩),
          ((1, 18, 0, 0, 2), ⟨100, 1, 18, 0, 0, 2, 1⟩)]),
   (200, [((6, 21, 0, 0, 3), ⟨200, 6, 21, 0, 0, 3, 5⟩)])]

/-- Witness for C6 at the concrete two-bucket table: three records. -/
theorem record_count_eq_sum_witness :
    ∃ bs, write_book_file tW2 =
      Except.ok (bs, (tW2.map (fun p => ((p.2.map Prod.fst).dedup).length)).sum) :=
  record_count_eq_sum tW2 (by unfold fieldsFit; decide) (by decide)

/-- A weight that does not fit 2 bytes makes the record conversion raise: some
field's to_bytes call (the weight's, if none of the earlier fields already
overflowed) reports an overflow. -/
lemma writeEntry_weight_overflow (e : OpeningBookEntry)
    (hw : 256 ^ 2 ≤ e.weight) :
    ∃ err, writeEntry e = Except.error err := by
  have hn : ¬(e.weight < 256 ^ 2) := not_lt.mpr hw
  by_cases h1 : e.hash < 256 ^ 8
  · by_cases h2 : e.source < 256 ^ 1
    · by_cases h3 : e.target < 256 ^ 1
      · by_cases h4 : e.promotion < 256 ^ 1
        · by_cases h5 : e.move_type < 256 ^ 1
          · by_cases h6 : e.piece < 256 ^ 1
            · exact ⟨WriteError.weightTooBig, by
                simp only [writeEntry, to_bytes_chk, if_pos h1, if_pos h2,
                  if_pos h3, if_pos h4, if_pos h5, if_pos h6, if_neg hn,
                  bind_ok_eq, bind_error_eq]⟩
            · exact ⟨WriteError.pieceTooBig, by
                simp only [writeEntry, to_bytes_chk, if_pos h1, if_pos h2,
                  if_pos h3, if_pos h4, if_pos h5, if_neg h6,
                  bind_ok_eq, bind_error_eq]⟩
          · exact ⟨WriteError.moveTypeTooBig, by
              simp only [writeEntry, to_bytes_chk, if_pos h1, if_pos h2,
                if_pos h3, if_pos h4, if_neg h5, bind_ok_eq, bind_error_eq]⟩
        · exact ⟨WriteError.promotionTooBig, by
            simp only [writeEntry, to_bytes_chk, if_pos h1, if_pos h2,
              if_pos h3, if_neg h4, bind_ok_eq, bind_error_eq]⟩
      · exact ⟨WriteError.targetTooBig, by
          simp only [writeEntry, to_bytes_chk, if_pos h1, if_pos h2,
            if_neg h3, bind_ok_eq, bind_error_eq]⟩
    · exact ⟨WriteError.sourceTooBig, by
        simp only [writeEntry, to_bytes_chk, if_pos h1, if_neg h2,
          bind_ok_eq, bind_error_eq]⟩
  · exact ⟨WriteError.hashTooBig, by
      simp only [writeEntry, to_bytes_chk, if_neg h1, bind_error_eq]⟩

lemma writeEntries_error_propagates (b : Bucket)
    (q : MoveKey × OpeningBookEntry) (hq : q ∈ b)
    (herr : ∃ err, writeEntry q.2 = Except.error err) :
    ∃ err, writeEntries b = Except.error err := by
  induction b with
  | nil => cases hq
  | cons hd rest ih =>
    rcases List.mem_cons.mp hq with heq | hmem
    · subst heq
      obtain ⟨err, he⟩ := herr
      exact ⟨err, by rw [writeEntries, he, bind_error_eq]⟩
    · cases hw : writeEntry hd.2 with
      | error err => exact ⟨err, by rw [writeEntries, hw, bind_error_eq]⟩
      | ok r =>
        obtain ⟨err, hrest⟩ := ih hmem
        exact ⟨err, by rw [writeEntries, hw, bind_ok_eq, hrest, bind_error_eq]⟩

lemma writeAll_error_propagates (t : Positions) (p : Nat × Bucket) (hp : p ∈ t)
    (herr : ∃ err, writeEntries p.2 = Except.error err) :
    ∃ err, writeAll t = Except.error err := by
  induction t with
  | nil => cases hp
  | cons hd rest ih =>
    rcases List.mem_cons.mp hp with heq | hmem
    · subst heq
      obtain ⟨err, he⟩ := herr
      exact ⟨err, by rw [writeAll, he, bind_error_eq]⟩
    · cases hw : writeEntries hd.2 with
      | error err => exact ⟨err, by rw [writeAll, hw, bind_error_eq]⟩
      | ok r =>
        obtain ⟨err, hrest⟩ := ih hmem
        exact ⟨err, by rw [writeAll, hw, bind_ok_eq, hrest, bind_error_eq]⟩

/-- A weight that fits 2 bytes can never be the field that raises. -/
lemma writeEntry_no_weight_err (e : OpeningBookEntry) (hw : e.weight < 256 ^ 2) :
    writeEntry e ≠ Except.error WriteError.weightTooBig := by
  intro hcontra
  by_cases h1 : e.hash < 256 ^ 8
  · by_cases h2 : e.source < 256 ^ 1
    · by_cases h3 : e.target < 256 ^ 1
      · by_cases h4 : e.promotion < 256 ^ 1
        · by_cases h5 : e.move_type < 256 ^ 1
          · by_cases h6 : e.piece < 256 ^ 1
            · simp only [writeEntry, to_bytes_chk, if_pos h1, if_pos h2,
                if_pos h3, if_pos h4, if_pos h5, if_pos h6, if_pos hw,
                bind_ok_eq, bind_error_eq] at hcontra
              exact Except.noConfusion hcontra
            · simp only [writeEntry, to_bytes_chk, if_pos h1, if_pos h2,
                if_pos h3, if_pos h4, if_pos h5, if_neg h6,
                bind_ok_eq, bind_error_eq] at hcontra
              injection hcontra with heq
              exact WriteError.noConfusion heq
          · simp only [writeEntry, to_bytes_chk, if_pos h1, if_pos h2,
              if_pos h3, if_pos h4, if_neg h5, bind_ok_eq, bind_error_eq] at hcontra
            injection hcontra with heq
            exact WriteError.noConfusion heq
        · simp only [writeEntry, to_bytes_chk, if_pos h1, if_pos h2,
            if_pos h3, if_neg h4, bind_ok_eq, bind_error_eq] at hcontra
          injection hcontra with heq
          exact WriteError.noConfusion heq
      · simp only [writeEntry, to_bytes_chk, if_pos h1, if_pos h2,
          if_neg h3, bind_ok_eq, bind_error_eq] at hcontra
        injection hcontra with heq
        exact WriteError.noConfusion heq
    · simp only [writeEntry, to_bytes_chk, if_pos h1, if_neg h2,
        bind_ok_eq, bind_error_eq] at hcontra
      injection hcontra with heq
      exact WriteError.noConfusion heq
  · simp only [writeEntry, to_bytes_chk, if_neg h1, bind_error_eq] at hcontra
    injection hcontra with heq
    exact WriteError.noConfusion heq

lemma writeEntries_no_weight_err (b : Bucket)
    (hb : ∀ q ∈ b, writeEntry q.2 ≠ Except.error WriteError.weightTooBig) :
    writeEntries b ≠ Except.error WriteError.weightTooBig := by
  induction b with
  | nil => intro hcontra; simp [writeEntries] at hcontra
  | cons hd rest ih =>
    intro hcontra
    rw [writeEntries] at hcontra
    cases hw : writeEntry hd.2 with
    | error err =>
      rw [hw, bind_error_eq] at hcontra
      injection hcontra with heq
      exact hb hd (List.mem_cons_self hd rest) (by rw [hw, heq])
    | ok r =>
      rw [hw, bind_ok_eq] at hcontra
      cases hrest : writeEntries rest with
      | error err =>
        rw [hrest, bind_error_eq] at hcontra
        injection hcontra with heq
        exact ih (fun q hq => hb q (List.mem_cons_of_mem hd hq)) (by rw [hrest, heq])
      | ok rr => rw [hrest, bind_ok_eq] at hcontra; simp at hcontra

lemma writeAll_no_weight_err (t : Positions)
    (ht : ∀ p ∈ t, ∀ q ∈ p.2, writeEntry q.2 ≠ Except.error WriteError.weightTooBig) :
    writeAll t ≠ Except.error WriteError.weightTooBig := by
  induction t with
  | nil => intro hcontra; simp [writeAll] at hcontra
  | cons hd rest ih =>
    intro hcontra
    rw [writeAll] at hcontra
    cases hw : writeEntries hd.2 with
    | error err =>
      rw [hw, bind_error_eq] at hcontra
      injection hcontra with heq
      exact writeEntries_no_weight_err hd.2
        (fun q hq => ht hd (List.mem_cons_self hd rest) q hq) (by rw [hw, heq])
    | ok r =>
      rw [hw, bind_ok_eq] at hcontra
      cases hrest : writeAll rest with
      | error err =>
        rw [hrest, bind_error_eq] at hcontra
        injection hcontra with heq
        exact ih (fun p hp => ht p (List.mem_cons_of_mem hd hp)) (by rw [hrest, heq])
      | ok rr => rw [hrest, bind_ok_eq] at hcontra; simp at hcontra

/-- C9.  Weights count without any cap: an identity observed n > 0 times is
stored with weight exactly n as an unbounded natural number; a table holding
any entry of weight at least 65536 makes the writer raise an overflow error;
and a table whose weights all fit 2 bytes can never reach the weight
conversion's overflow branch. -/
theorem weight_overflow_behavior :
    (∀ (L : List Obs) (h : Nat) (k : MoveKey), 0 < identCount L h k →
      ∃ e, lookupT (ingest L) h k = some e ∧ e.weight = identCount L h k) ∧
      (∀ t : Positions, (∃ p ∈ t, ∃ q ∈ p.2, 65536 ≤ q.2.weight) →
        ∃ err, write_book_file t = Except.error err) ∧
      (∀ t : Positions, (∀ p ∈ t, ∀ q ∈ p.2, q.2.weight ≤ 65535) →
        write_book_file t ≠ Except.error WriteError.weightTooBig) := by
  refine ⟨?_, ?_, ?_⟩
  · intro L h k hpos
    cases hf : firstIdent L h k with
    | none =>
      exfalso
      unfold firstIdent at hf
      rw [List.head?_eq_none_iff] at hf
      unfold identCount at hpos
      rw [hf] at hpos
      exact absurd hpos (by simp)
    | some o =>
      have hfold := lookupT_foldl h k L []
      have hbase : lookupT ([] : Positions) h k = none := rfl
      rw [hbase] at hfold
      refine ⟨entryWithWeight o (identCount L h k), ?_, rfl⟩
      unfold ingest
      rw [hfold]
      simp [mergeResult, hf]
  · intro t ⟨p, hp, q, hq, hwt⟩
    have hwt' : 256 ^ 2 ≤ q.2.weight := by
      have : (256 : Nat) ^ 2 = 65536 := by norm_num
      omega
    obtain ⟨err, herr⟩ := writeAll_error_propagates t p hp
      (writeEntries_error_propagates p.2 q hq (writeEntry_weight_overflow q.2 hwt'))
    exact ⟨err, by rw [write_book_file, herr, bind_error_eq]⟩
  · intro t hsmall hcontra
    rw [write_book_file] at hcontra
    cases hall : writeAll t with
    | error err =>
      rw [hall, bind_error_eq] at hcontra
      injection hcontra with heq
      refine writeAll_no_weight_err t ?_ (by rw [hall, heq])
      intro p hp q hq
      apply writeEntry_no_weight_err
      have : (256 : Nat) ^ 2 = 65536 := by norm_num
      have := hsmall p hp q hq
      omega
    | ok r => rw [hall, bind_ok_eq] at hcontra; simp at hcontra

/-- A concrete table whose single entry's weight overflows 2 bytes. -/
def tOver : Positions :=
  [(100, [((12, 28, 0, 4, 1), ⟨100, 12, 28, 0, 4, 1, 70000⟩)])]

/-- Witness for C9: the overflowing table makes the writer raise, the small
concrete table never reaches the weight overflow branch, and in the concrete
stream the twice-observed identity has weight exactly its count. -/
theorem weight_overflow_behavior_witness :
    (∃ err, write_book_file tOver = Except.error err) ∧
      write_book_file tW1 ≠ Except.error WriteError.weightTooBig ∧
      ∃ e, lookupT (ingest LW) 100 (12, 28, 0, 4, 1) = some e ∧
        e.weight = identCount LW 100 (12, 28, 0, 4, 1) :=
  ⟨weight_overflow_behavior.2.1 tOver (by decide),
   weight_overflow_behavior.2.2 tW1 (by decide),
   weight_overflow_behavior.1 LW 100 (12, 28, 0, 4, 1) (by decide)⟩

end BookGen
